import Mathlib

/-!
Verification of the segmented-stream acquisition and reassembly pipeline of
`wb_downloader.py` (class `WildberriesDownloader`).

Python strings are modelled as lists of characters (`PyStr`), byte buffers as
lists of naturals (`Bytes`).  Fallible operations return `Except PyErr`.  The
HTTP transport is a parameter `http : PyStr → Nat × body` mapping a URL to the
status and body of the (single) response the server would give for it.  The
concurrent `asyncio.gather` join is modelled by `gatherModel`, parametrised by
an arbitrary task-completion order, so that order-(in)dependence can be stated.
-/

namespace WB

/-- Python `str` modelled as a list of characters. -/
abbrev PyStr := List Char

/-- Python `bytes` modelled as a list of naturals (byte values). -/
abbrev Bytes := List Nat

/-- The characters removed by Python's `str.strip()` (ASCII whitespace:
space, tab, newline, carriage return, vertical tab, form feed). -/
def isSpaceChar (c : Char) : Bool :=
  c == ' ' || c == '\t' || c == '\n' || c == '\x0d' || c == '\x0b' || c == '\x0c'

/-- `s.lstrip()`: remove leading whitespace. -/
def lstrip (s : PyStr) : PyStr := s.dropWhile isSpaceChar

/-- `s.rstrip()`: remove trailing whitespace. -/
def rstrip (s : PyStr) : PyStr := (s.reverse.dropWhile isSpaceChar).reverse

/-- Python `s.strip()`: remove leading and trailing whitespace. -/
def pyStrip (s : PyStr) : PyStr := rstrip (lstrip s)

/-- Python `s.split(c)` for a one-character separator: splits at every
occurrence of `c`, keeping empty pieces (so `''.split(c) = ['']`). -/
def splitOnChar (c : Char) : PyStr → List PyStr
  | [] => [[]]
  | a :: rest =>
    if a = c then [] :: splitOnChar c rest
    else
      match splitOnChar c rest with
      | [] => [[a]]
      | l :: ls => (a :: l) :: ls

/-- `c.join(pieces)` for a one-character separator (inverse of `splitOnChar`). -/
def joinWith (c : Char) : List PyStr → PyStr
  | [] => []
  | [s] => s
  | s :: l :: ls => s ++ c :: joinWith c (l :: ls)

/-- Python `line.startswith('#')`. -/
def startsWithHash : PyStr → Bool
  | [] => false
  | c :: _ => c == '#'

/-- The filter of the list comprehension in `_download_playlist`
(`wb_downloader.py:235-239`): keep a line iff `line.strip()` is truthy and the
raw line does not start with `'#'`. -/
def keepLine (line : PyStr) : Bool :=
  !(pyStrip line).isEmpty && !startsWithHash line

/-- The playlist parsing step of `_download_playlist`
(`wb_downloader.py:234-239`): `content.strip().split('\n')`, then the
comprehension `[line.strip() for line in lines if line.strip() and not
line.startswith('#')]`. -/
def parse_segment_files (content : PyStr) : List PyStr :=
  let lines := splitOnChar '\n' (pyStrip content)
  (lines.filter keepLine).map pyStrip

/-- The comprehension of `_download_playlist` applied to a text that is split
into lines without first being stripped; `parse_segment_files content`
is `rawSegRefs (pyStrip content)`. -/
def rawSegRefs (s : PyStr) : List PyStr :=
  ((splitOnChar '\n' s).filter keepLine).map pyStrip

/-- Append a character to the last piece of a line list (the effect of
appending a non-separator character to a text, on its line split). -/
def appendLast (a : Char) : List PyStr → List PyStr
  | [] => [[a]]
  | [l] => [l ++ [a]]
  | l :: l2 :: ls => l :: appendLast a (l2 :: ls)

/-- The side condition of the amended claims C3/C9: the first line of the
text that is not pure whitespace, if its stripped form starts with `'#'`,
already starts with `'#'` unstripped.  When this fails, the whole-text
`content.strip()` of `_download_playlist` deletes that line's leading
whitespace and the line is then discarded as a comment. -/
def goodFirstLines : List PyStr → Bool
  | [] => true
  | l :: rest =>
    if pyStrip l = [] then goodFirstLines rest
    else !startsWithHash (pyStrip l) || startsWithHash l

/-- `s.rsplit('/', 1)[0]`: everything before the last `'/'`; `s` itself when
there is no `'/'`. -/
def rsplitSlashHead (s : PyStr) : PyStr :=
  match s.reverse.dropWhile (fun c => c ≠ '/') with
  | [] => s
  | _ :: rest => rest.reverse

/-- `base_url = m3u8_url.rsplit('/', 1)[0] + '/'` (`wb_downloader.py:244`). -/
def base_url_of (m3u8_url : PyStr) : PyStr :=
  rsplitSlashHead m3u8_url ++ ['/']

/-!
Model of `urllib.parse.urljoin`, the library routine `_download_all_segments`
uses to resolve each segment reference against the playlist's base URL
(`wb_downloader.py:267`).  The definitions below follow CPython's
`urllib/parse.py` (`urlsplit`/`urlparse`/`urlunsplit`/`urlunparse`/`urljoin`)
step for step; the IPv6-bracket validation of `urlsplit`, which only raises
`ValueError` on malformed netlocs, is not modelled.
-/

/-- CPython `scheme_chars`: ASCII letters, digits, `+`, `-`, `.`. -/
def schemeChars (c : Char) : Bool :=
  c.isAlpha || c.isDigit || c == '+' || c == '-' || c == '.'

/-- Split a string at its first `':'`: `some (before, after)`, or `none` when
there is no `':'`. -/
def splitColon (s : PyStr) : Option (PyStr × PyStr) :=
  let pre := s.takeWhile (fun c => !(c == ':'))
  if pre.length < s.length then some (pre, s.drop (pre.length + 1)) else none

/-- The six components returned by `urllib.parse.urlparse`. -/
structure UrlParts where
  scheme : PyStr
  netloc : PyStr
  path : PyStr
  params : PyStr
  query : PyStr
  fragment : PyStr
  deriving Repr, DecidableEq

/-- CPython `uses_relative` (schemes that allow relative references). -/
def usesRelative (scheme : PyStr) : Bool :=
  ["".toList, "ftp".toList, "http".toList, "gopher".toList, "nntp".toList,
   "imap".toList, "wais".toList, "file".toList, "https".toList,
   "shttp".toList, "mms".toList, "prospero".toList, "rtsp".toList,
   "rtspu".toList, "sftp".toList, "svn".toList, "svn+ssh".toList,
   "ws".toList, "wss".toList].contains scheme

/-- CPython `uses_netloc` (schemes with a network location part). -/
def usesNetloc (scheme : PyStr) : Bool :=
  ["".toList, "ftp".toList, "http".toList, "gopher".toList, "nntp".toList,
   "telnet".toList, "imap".toList, "wais".toList, "file".toList,
   "mms".toList, "https".toList, "shttp".toList, "snews".toList,
   "prospero".toList, "rtsp".toList, "rtspu".toList, "rsync".toList,
   "svn".toList, "svn+ssh".toList, "sftp".toList, "nfs".toList,
   "git".toList, "git+ssh".toList, "ws".toList, "wss".toList].contains scheme

/-- CPython `uses_params` (schemes whose last path segment may carry
`;`-parameters). -/
def usesParams (scheme : PyStr) : Bool :=
  ["".toList, "ftp".toList, "hdl".toList, "prospero".toList, "http".toList,
   "imap".toList, "https".toList, "shttp".toList, "rtsp".toList,
   "rtspu".toList, "sip".toList, "sips".toList, "mms".toList,
   "sftp".toList, "tel".toList].contains scheme

/-- The suffix of `s` after its last `'/'` (all of `s` when there is none). -/
def afterLastSlash (s : PyStr) : PyStr :=
  (s.reverse.takeWhile (fun c => !(c == '/'))).reverse

/-- CPython `_splitparams`: split `;`-parameters off the last path segment
(only called when the path contains a `';'`). -/
def splitParams (path : PyStr) : PyStr × PyStr :=
  if '/' ∈ path then
    let post := afterLastSlash path
    if ';' ∈ post then
      let front := path.take (path.length - post.length)
      let pp := post.takeWhile (fun c => !(c == ';'))
      (front ++ pp, post.drop (pp.length + 1))
    else (path, [])
  else
    let pre := path.takeWhile (fun c => !(c == ';'))
    (pre, path.drop (pre.length + 1))

/-- The scheme-recognition step of CPython `urlsplit`: when the prefix before
the first `':'` is a well-formed scheme name (leading letter, scheme chars
only), return it lowercased together with the remainder, else fall back to
the caller-supplied default scheme. -/
def schemeSplit (url : PyStr) (defaultScheme : PyStr) : PyStr × PyStr :=
  match splitColon url with
  | some (pre, post) =>
    if pre ≠ [] ∧ (match pre.head? with
        | some c => c.isAlpha
        | none => false) = true ∧ pre.all schemeChars
    then (pre.map Char.toLower, post)
    else (defaultScheme, url)
  | none => (defaultScheme, url)

/-- The netloc-extraction step of CPython `urlsplit`
(`if url[:2] == '//'`): the netloc runs up to the next `/`, `?` or `#`. -/
def netlocSplit (rest : PyStr) : PyStr × PyStr :=
  if rest.take 2 = ['/', '/'] then
    let r := rest.drop 2
    let nl := r.takeWhile (fun c => !(c == '/') && !(c == '?') && !(c == '#'))
    (nl, r.drop nl.length)
  else ([], rest)

/-- The fragment split of CPython `urlsplit` (`url.split('#', 1)` when a
`'#'` is present). -/
def fragSplit (rest : PyStr) : PyStr × PyStr :=
  if '#' ∈ rest then
    (rest.takeWhile (fun c => !(c == '#')),
      rest.drop ((rest.takeWhile (fun c => !(c == '#'))).length + 1))
  else (rest, [])

/-- The query split of CPython `urlsplit` (`url.split('?', 1)` when a `'?'`
is present). -/
def querySplit (rest : PyStr) : PyStr × PyStr :=
  if '?' ∈ rest then
    (rest.takeWhile (fun c => !(c == '?')),
      rest.drop ((rest.takeWhile (fun c => !(c == '?'))).length + 1))
  else (rest, [])

/-- CPython `urlparse(url, scheme=defaultScheme)`: split off the scheme, the
netloc, the fragment, the query, and the `;`-parameters of the last path
segment (only for schemes in `uses_params`, and only when a `';'` occurs). -/
def pyUrlparse (url : PyStr) (defaultScheme : PyStr) : UrlParts :=
  let sp := schemeSplit url defaultScheme
  let np := netlocSplit sp.2
  let fp := fragSplit np.2
  let qp := querySplit fp.1
  let pp := if usesParams sp.1 ∧ ';' ∈ qp.1 then splitParams qp.1 else (qp.1, [])
  ⟨sp.1, np.1, pp.1, pp.2, qp.2, fp.2⟩

/-- CPython `urlunsplit((scheme, netloc, path, query, fragment))`. -/
def pyUrlunsplit (scheme netloc path query fragment : PyStr) : PyStr :=
  let url1 :=
    if netloc ≠ [] ∨ path.take 2 = ['/', '/'] then
      let p := if path ≠ [] ∧ path.head? ≠ some '/' then '/' :: path else path
      '/' :: '/' :: (netloc ++ p)
    else path
  let url2 := if scheme ≠ [] then scheme ++ ':' :: url1 else url1
  let url3 := if query ≠ [] then url2 ++ '?' :: query else url2
  if fragment ≠ [] then url3 ++ '#' :: fragment else url3

/-- CPython `urlunparse`: reattach the `;`-parameters, then `urlunsplit`. -/
def pyUrlunparse (u : UrlParts) : PyStr :=
  let path := if u.params ≠ [] then u.path ++ ';' :: u.params else u.path
  pyUrlunsplit u.scheme u.netloc path u.query u.fragment

/-- `filter(None, segments[1:-1])` of CPython `urljoin`: drop empty strings,
keeping the first and last elements untouched (helper for the last element). -/
def filterNotLast : List PyStr → List PyStr
  | [] => []
  | [a] => [a]
  | a :: b :: rest =>
    if a = [] then filterNotLast (b :: rest)
    else a :: filterNotLast (b :: rest)

/-- `segments[1:-1] = filter(None, segments[1:-1])` of CPython `urljoin`. -/
def filterMiddleEmpties : List PyStr → List PyStr
  | [] => []
  | a :: rest => a :: filterNotLast rest

/-- The dot-segment resolution loop of CPython `urljoin`: `'..'` pops the
accumulator (a pop on an empty accumulator is ignored), `'.'` is skipped,
everything else is appended. -/
def resolveDotSegs (segments : List PyStr) : List PyStr :=
  segments.foldl
    (fun acc seg =>
      if seg = ['.', '.'] then acc.dropLast
      else if seg = ['.'] then acc
      else acc ++ [seg]) []

/-- CPython `urljoin(base, url)`: full RFC-3986-style URI-reference
resolution, as performed at `wb_downloader.py:267`. -/
def pyUrljoin (base url : PyStr) : PyStr :=
  if base = [] then url
  else if url = [] then base
  else
    let b := pyUrlparse base []
    let u := pyUrlparse url b.scheme
    if u.scheme ≠ b.scheme ∨ ¬ usesRelative u.scheme then url
    else if usesNetloc u.scheme ∧ u.netloc ≠ [] then
      pyUrlunparse ⟨u.scheme, u.netloc, u.path, u.params, u.query, u.fragment⟩
    else
      let netloc := if usesNetloc u.scheme then b.netloc else u.netloc
      if u.path = [] ∧ u.params = [] then
        let query := if u.query = [] then b.query else u.query
        pyUrlunparse ⟨u.scheme, netloc, b.path, b.params, query, u.fragment⟩
      else
        let baseParts0 := splitOnChar '/' b.path
        let baseParts :=
          if baseParts0.getLast? ≠ some [] then baseParts0.dropLast
          else baseParts0
        let segments :=
          if u.path.head? = some '/' then splitOnChar '/' u.path
          else filterMiddleEmpties (baseParts ++ splitOnChar '/' u.path)
        let resolved0 := resolveDotSegs segments
        let resolved :=
          if segments.getLast? = some ['.'] ∨ segments.getLast? = some ['.', '.']
          then resolved0 ++ [[]] else resolved0
        let path0 := joinWith '/' resolved
        let path := if path0 = [] then ['/'] else path0
        pyUrlunparse ⟨u.scheme, netloc, path, u.params, u.query, u.fragment⟩

/-- The exceptions raised by the downloader's fetch/parse layer:
`HTTP {status} ...` (`wb_downloader.py:229,257`) and
`No video segments found in playlist` (`wb_downloader.py:242`). -/
inductive PyErr where
  | httpStatus (status : Nat)
  | emptyPlaylist
  deriving Repr, DecidableEq

/-- `Except.isOk` spelled out, to keep the development self-contained. -/
def exOk {ε α : Type} : Except ε α → Bool
  | .ok _ => true
  | .error _ => false

/-- Whether an `Except` value is an `httpStatus` error. -/
def isHttpStatusErr {α : Type} : Except PyErr α → Bool
  | .error (.httpStatus _) => true
  | _ => false

/-- `_download_playlist` (`wb_downloader.py:223-249`): GET the playlist URL,
raise on a non-200 status, parse the body, raise on an empty segment list,
else return `(base_url, segment_files)`. -/
def download_playlist (http : PyStr → Nat × PyStr) (m3u8_url : PyStr) :
    Except PyErr (PyStr × List PyStr) :=
  let resp := http m3u8_url
  if resp.1 ≠ 200 then .error (.httpStatus resp.1)
  else
    let segment_files := parse_segment_files resp.2
    if segment_files.isEmpty then .error .emptyPlaylist
    else .ok (base_url_of m3u8_url, segment_files)

/-- `_download_segment` (`wb_downloader.py:251-261`): GET the segment URL,
raise on a non-200 status, else return the body bytes. -/
def download_segment (http : PyStr → Nat × Bytes) (segment_url : PyStr) :
    Except PyErr Bytes :=
  let resp := http segment_url
  if resp.1 ≠ 200 then .error (.httpStatus resp.1) else .ok resp.2

/-- The earliest error among `tasks` in the completion order `order`
(indices into `tasks`). -/
def firstErrorIn {ε α : Type} (order : List Nat) (tasks : List (Except ε α)) :
    Option ε :=
  order.findSome? fun i =>
    match tasks.get? i with
    | some (.error e) => some e
    | _ => none

/-- Collect the results of a task list in task index order, or the first
error in index order if any task failed. -/
def collectOk {ε α : Type} : List (Except ε α) → Except ε (List α)
  | [] => .ok []
  | .error e :: _ => .error e
  | .ok b :: rest => (collectOk rest).map (b :: ·)

/-- Model of `asyncio.gather(*tasks)` with `return_exceptions=False`
(`wb_downloader.py:272`): if any task fails, the exception of the task that
completes first (per `order`) is raised; on full success the results are
returned in task index order, never in completion order. -/
def gatherModel {ε α : Type} (order : List Nat) (tasks : List (Except ε α)) :
    Except ε (List α) :=
  match firstErrorIn order tasks with
  | some e => .error e
  | none => collectOk tasks

/-- `_download_all_segments` (`wb_downloader.py:263-275`): one fetch task per
segment at `urljoin(base_url, segment)`, gathered, then `b''.join(...)`. -/
def download_all_segments (http : PyStr → Nat × Bytes) (order : List Nat)
    (base_url : PyStr) (segment_files : List PyStr) : Except PyErr Bytes :=
  let tasks := segment_files.map
    (fun segment => download_segment http (pyUrljoin base_url segment))
  (gatherModel order tasks).map List.flatten

/-- The outcome of the source-discovery phase of `download`
(`wb_downloader.py:329-372`), which drives a browser and is an external
collaborator: either a video source URL was found (methods 1-3), or one of the
early `return False` exits was taken, or the selenium layer raised. -/
inductive Discovery where
  | found (src : PyStr)
  | noPhotosSection
  | noPreviews
  | notFound
  | raised
  deriving Repr, DecidableEq

/-- Observable trace of one `download()` run: the returned boolean, whether
`_convert_to_mp4` was invoked, and how many times `_cleanup_temp_files` ran. -/
structure RunTrace where
  success : Bool
  convertInvoked : Bool
  cleanupCount : Nat
  deriving Repr, DecidableEq

/-- `download` (`wb_downloader.py:317-399`).  The `validate_url` early return
happens before the `try` block, so it skips the `finally` cleanup; every path
inside the `try` (early returns, the `except` handler for any raised stage,
and the success path) runs `_cleanup_temp_files` exactly once via `finally`.
`writeOk` models whether `temp_ts.write_bytes` succeeds, `convertOk` the
boolean returned by `_convert_to_mp4` (which is total: it catches its own
exceptions). -/
def downloadRun (validUrl : Bool) (disc : Discovery)
    (httpT : PyStr → Nat × PyStr) (httpB : PyStr → Nat × Bytes)
    (order : List Nat) (writeOk : Bool) (convertOk : Bool) : RunTrace :=
  if !validUrl then ⟨false, false, 0⟩
  else
    let body : Bool × Bool :=
      match disc with
      | .raised => (false, false)
      | .noPhotosSection => (false, false)
      | .noPreviews => (false, false)
      | .notFound => (false, false)
      | .found src =>
        match download_playlist httpT src with
        | .error _ => (false, false)
        | .ok (base_url, segment_files) =>
          match download_all_segments httpB order base_url segment_files with
          | .error _ => (false, false)
          | .ok _data =>
            if !writeOk then (false, false)
            else (convertOk, true)
    ⟨body.1, body.2, 1⟩

/-- The condition of claim C7: the playlist fetch/parse stage or the
segment-fetch stage of the pipeline errors. -/
def fetchOrParseStageFails (httpT : PyStr → Nat × PyStr)
    (httpB : PyStr → Nat × Bytes) (order : List Nat) (src : PyStr) : Bool :=
  match download_playlist httpT src with
  | .error _ => true
  | .ok (base_url, segment_files) =>
    !exOk (download_all_segments httpB order base_url segment_files)

/-! ### Generic lemmas about the gather model -/

theorem collectOk_error {ε α : Type} (tasks : List (Except ε α))
    (h : ∃ t ∈ tasks, exOk t = false) : ∃ e, collectOk tasks = .error e := by
  induction tasks with
  | nil => rcases h with ⟨t, ht, _⟩; cases ht
  | cons x rest ih =>
    cases x with
    | error e => exact ⟨e, rfl⟩
    | ok b =>
      rcases h with ⟨t, ht, hexk⟩
      rcases List.mem_cons.mp ht with h1 | h2
      · subst h1; simp [exOk] at hexk
      · rcases ih ⟨t, h2, hexk⟩ with ⟨e, he⟩
        exact ⟨e, by simp [collectOk, he, Except.map]⟩

theorem collectOk_map_ok {α β ε : Type} (l : List α) (task : α → Except ε β)
    (body : α → β) (h : ∀ a ∈ l, task a = .ok (body a)) :
    collectOk (l.map task) = .ok (l.map body) := by
  induction l with
  | nil => rfl
  | cons x rest ih =>
    have hx := h x (List.mem_cons_self x rest)
    have hr := ih fun a ha => h a (List.mem_cons_of_mem x ha)
    simp only [List.map_cons, hx, collectOk, hr, Except.map]

theorem firstErrorIn_none_of_ok {ε α : Type} (order : List Nat)
    (tasks : List (Except ε α)) (h : ∀ t ∈ tasks, exOk t = true) :
    firstErrorIn order tasks = none := by
  unfold firstErrorIn
  rw [List.findSome?_eq_none_iff]
  intro i _
  cases hg : tasks.get? i with
  | none => simp
  | some t =>
    have := h t (List.get?_mem hg)
    cases t with
    | ok b => simp
    | error e => simp [exOk] at this

theorem gatherModel_error {ε α : Type} (order : List Nat)
    (tasks : List (Except ε α)) (h : ∃ t ∈ tasks, exOk t = false) :
    ∃ e, gatherModel order tasks = .error e := by
  unfold gatherModel
  cases hf : firstErrorIn order tasks with
  | some e => exact ⟨e, rfl⟩
  | none => simpa using collectOk_error tasks h

/-! ### Lemmas about the Python string primitives -/

theorem splitOnChar_ne_nil (c : Char) (s : PyStr) : splitOnChar c s ≠ [] := by
  cases s with
  | nil => simp [splitOnChar]
  | cons a t =>
    unfold splitOnChar
    by_cases h : a = c
    · simp [h]
    · simp only [if_neg h]
      cases splitOnChar c t <;> simp

theorem splitOnChar_cons_sep (c : Char) (t : PyStr) :
    splitOnChar c (c :: t) = [] :: splitOnChar c t := by
  conv_lhs => rw [splitOnChar.eq_def]
  simp

theorem splitOnChar_cons_ne (c a : Char) (t : PyStr) (h : ¬ a = c)
    (l : PyStr) (ls : List PyStr) (hs : splitOnChar c t = l :: ls) :
    splitOnChar c (a :: t) = (a :: l) :: ls := by
  conv_lhs => rw [splitOnChar.eq_def]
  simp only [hs, if_neg h]

theorem splitOnChar_dest (c : Char) (t : PyStr) :
    ∃ l ls, splitOnChar c t = l :: ls := by
  cases hs : splitOnChar c t with
  | nil => exact absurd hs (splitOnChar_ne_nil c t)
  | cons l ls => exact ⟨l, ls, rfl⟩

theorem splitOnChar_append_sep (c : Char) (t : PyStr) :
    splitOnChar c (t ++ [c]) = splitOnChar c t ++ [[]] := by
  induction t with
  | nil => simp [splitOnChar]
  | cons a r ih =>
    by_cases h : a = c
    · subst h
      rw [List.cons_append, splitOnChar_cons_sep, splitOnChar_cons_sep, ih]
      rfl
    · obtain ⟨l, ls, hs⟩ := splitOnChar_dest c r
      rw [List.cons_append,
        splitOnChar_cons_ne c a (r ++ [c]) h l (ls ++ [[]])
          (by rw [ih, hs]; rfl),
        splitOnChar_cons_ne c a r h l ls hs]
      rfl

theorem splitOnChar_append_ne (c a : Char) (h : ¬ a = c) (t : PyStr) :
    splitOnChar c (t ++ [a]) = appendLast a (splitOnChar c t) := by
  induction t with
  | nil => simp [splitOnChar, h, appendLast]
  | cons b r ih =>
    obtain ⟨l, ls, hs⟩ := splitOnChar_dest c r
    by_cases hb : b = c
    · subst hb
      rw [List.cons_append, splitOnChar_cons_sep, splitOnChar_cons_sep, ih, hs]
      rfl
    · have h2 : splitOnChar c (r ++ [a]) = appendLast a (l :: ls) := by
        rw [ih, hs]
      cases ls with
      | nil =>
        rw [List.cons_append,
          splitOnChar_cons_ne c b (r ++ [a]) hb (l ++ [a]) []
            (by rw [h2]; rfl),
          splitOnChar_cons_ne c b r hb l [] hs]
        rfl
      | cons l2 ls2 =>
        rw [List.cons_append,
          splitOnChar_cons_ne c b (r ++ [a]) hb l (appendLast a (l2 :: ls2))
            (by rw [h2]; rfl),
          splitOnChar_cons_ne c b r hb l (l2 :: ls2) hs]
        rfl

theorem splitOnChar_no_sep (c : Char) (s : PyStr) (h : c ∉ s) :
    splitOnChar c s = [s] := by
  induction s with
  | nil => rfl
  | cons a t ih =>
    have ha : ¬ a = c := fun hh => h (hh ▸ List.mem_cons_self a t)
    exact splitOnChar_cons_ne c a t ha t []
      (ih fun hm => h (List.mem_cons_of_mem a hm))

theorem splitOnChar_sep_mid (c : Char) (s t : PyStr) (h : c ∉ s) :
    splitOnChar c (s ++ c :: t) = s :: splitOnChar c t := by
  induction s with
  | nil => exact splitOnChar_cons_sep c t
  | cons a r ih =>
    have ha : ¬ a = c := fun hh => h (hh ▸ List.mem_cons_self a r)
    have ihr := ih fun hm => h (List.mem_cons_of_mem a hm)
    rw [List.cons_append, splitOnChar_cons_ne c a (r ++ c :: t) ha r
      (splitOnChar c t) ihr]

theorem splitOnChar_join (c : Char) (L : List PyStr) (hne : L ≠ [])
    (h : ∀ l ∈ L, c ∉ l) : splitOnChar c (joinWith c L) = L := by
  induction L with
  | nil => exact absurd rfl hne
  | cons s rest ih =>
    cases rest with
    | nil => exact splitOnChar_no_sep c s (h s (List.mem_cons_self s []))
    | cons l2 ls =>
      have hjoin : joinWith c (s :: l2 :: ls) = s ++ c :: joinWith c (l2 :: ls) :=
        rfl
      rw [hjoin, splitOnChar_sep_mid c s _ (h s (List.mem_cons_self s _)),
        ih (by simp) fun l hl => h l (List.mem_cons_of_mem s hl)]

theorem dropWhile_head_false {α : Type} {p : α → Bool} :
    ∀ (l : List α) (c : α) (cs : List α), l.dropWhile p = c :: cs → p c = false := by
  intro l
  induction l with
  | nil => intro c cs h; simp at h
  | cons a t ih =>
    intro c cs h
    by_cases hp : p a
    · rw [List.dropWhile_cons_of_pos hp] at h
      exact ih c cs h
    · rw [List.dropWhile_cons_of_neg hp] at h
      cases h
      simpa using hp

theorem lstrip_cons_space (c : Char) (t : PyStr) (h : isSpaceChar c = true) :
    lstrip (c :: t) = lstrip t := by
  simp [lstrip, h]

theorem lstrip_cons_nospace (c : Char) (t : PyStr) (h : isSpaceChar c = false) :
    lstrip (c :: t) = c :: t := by
  simp [lstrip, h]

theorem pyStrip_cons_space (c : Char) (t : PyStr) (h : isSpaceChar c = true) :
    pyStrip (c :: t) = pyStrip t := by
  unfold pyStrip
  rw [lstrip_cons_space c t h]

theorem rstrip_append_space (t : PyStr) (c : Char) (h : isSpaceChar c = true) :
    rstrip (t ++ [c]) = rstrip t := by
  simp [rstrip, List.reverse_append, h]

theorem rstrip_append_nospace (t : PyStr) (c : Char) (h : isSpaceChar c = false) :
    rstrip (t ++ [c]) = t ++ [c] := by
  simp [rstrip, List.reverse_append, h]

theorem lstrip_eq_nil_iff (s : PyStr) :
    lstrip s = [] ↔ ∀ x ∈ s, isSpaceChar x = true := by
  simp [lstrip, List.dropWhile_eq_nil_iff]

theorem pyStrip_append_space (x : PyStr) (c : Char) (h : isSpaceChar c = true) :
    pyStrip (x ++ [c]) = pyStrip x := by
  unfold pyStrip
  by_cases hx : lstrip x = []
  · have h1 : lstrip (x ++ [c]) = [] := by
      rw [lstrip_eq_nil_iff] at hx ⊢
      intro y hy
      rcases List.mem_append.mp hy with hm | hm
      · exact hx y hm
      · rw [List.mem_singleton.mp hm]; exact h
    rw [h1, hx]
  · have h1 : lstrip (x ++ [c]) = lstrip x ++ [c] := by
      unfold lstrip at *
      rw [List.dropWhile_append]
      simp [hx]
    rw [h1, rstrip_append_space _ c h]

theorem space_not_hash (c : Char) (h : isSpaceChar c = true) :
    (c == '#') = false := by
  simp only [isSpaceChar, Bool.or_eq_true, beq_iff_eq] at h
  rcases h with ((((h | h) | h) | h) | h) | h <;> subst h <;> rfl

theorem keepLine_append_space (l : PyStr) (c : Char) (h : isSpaceChar c = true) :
    keepLine (l ++ [c]) = keepLine l := by
  unfold keepLine
  rw [pyStrip_append_space l c h]
  cases l with
  | nil =>
    simp [pyStrip, lstrip, rstrip, startsWithHash]
  | cons a t => rfl

theorem rstrip_prefix_rest (s : PyStr) : ∃ u, s = rstrip s ++ u := by
  refine ⟨(s.reverse.takeWhile isSpaceChar).reverse, ?_⟩
  unfold rstrip
  rw [← List.reverse_append, List.takeWhile_append_dropWhile, List.reverse_reverse]

theorem rstrip_head (s : PyStr) (h : rstrip s ≠ []) :
    (rstrip s).head? = s.head? := by
  obtain ⟨u, hu⟩ := rstrip_prefix_rest s
  cases hr : rstrip s with
  | nil => exact absurd hr h
  | cons a t =>
    rw [hu, hr]
    rfl

theorem startsWithHash_iff (x : PyStr) :
    startsWithHash x = true ↔ x.head? = some '#' := by
  cases x with
  | nil => simp [startsWithHash]
  | cons a t => simp [startsWithHash]

theorem startsWithHash_pyStrip (x : PyStr) (hx : startsWithHash x = true)
    (hne : pyStrip x ≠ []) : startsWithHash (pyStrip x) = true := by
  cases x with
  | nil => simp [startsWithHash] at hx
  | cons a t =>
    have ha : a = '#' := by simpa [startsWithHash] using hx
    subst ha
    have hl : lstrip ('#' :: t) = '#' :: t := lstrip_cons_nospace _ _ rfl
    have heq : pyStrip ('#' :: t) = rstrip ('#' :: t) := by
      unfold pyStrip
      rw [hl]
    rw [heq] at hne ⊢
    have hh := rstrip_head ('#' :: t) hne
    cases hr : rstrip ('#' :: t) with
    | nil => exact absurd hr hne
    | cons b u =>
      rw [hr] at hh
      simp only [List.head?_cons] at hh
      have : b = '#' := by injection hh
      simp [startsWithHash, this]

theorem dropWhile_self {α : Type} (p : α → Bool) (l : List α) :
    (l.dropWhile p).dropWhile p = l.dropWhile p := by
  cases hd : l.dropWhile p with
  | nil => rfl
  | cons c cs =>
    rw [List.dropWhile_cons_of_neg]
    simp [dropWhile_head_false l c cs hd]

theorem rstrip_rstrip (y : PyStr) : rstrip (rstrip y) = rstrip y := by
  unfold rstrip
  rw [List.reverse_reverse, dropWhile_self]

theorem lstrip_rstrip_lstrip (x : PyStr) :
    lstrip (rstrip (lstrip x)) = rstrip (lstrip x) := by
  cases hl : lstrip x with
  | nil =>
    simp [rstrip, lstrip]
  | cons c t =>
    have hc : isSpaceChar c = false := dropWhile_head_false x c t hl
    cases hr : rstrip (c :: t) with
    | nil => simp [lstrip]
    | cons b u =>
      have hh := rstrip_head (c :: t) (by rw [hr]; simp)
      rw [hr] at hh
      simp only [List.head?_cons] at hh
      have hb : b = c := by injection hh
      subst hb
      exact lstrip_cons_nospace b u hc

theorem pyStrip_idem (x : PyStr) : pyStrip (pyStrip x) = pyStrip x := by
  show rstrip (lstrip (rstrip (lstrip x))) = rstrip (lstrip x)
  rw [lstrip_rstrip_lstrip, rstrip_rstrip]

theorem pyStrip_eq_nil_of_all_space (l : PyStr)
    (h : ∀ x ∈ l, isSpaceChar x = true) : pyStrip l = [] := by
  unfold pyStrip
  rw [(lstrip_eq_nil_iff l).mpr h]
  rfl

/-! ### How the whole-text strip of the parser acts on the line structure -/

theorem keepLine_nil : keepLine [] = false := rfl

theorem rawSegRefs_appendLast (a : Char) (ha : isSpaceChar a = true)
    (L : List PyStr) :
    ((appendLast a L).filter keepLine).map pyStrip =
      (L.filter keepLine).map pyStrip := by
  induction L with
  | nil =>
    have h1 : keepLine [a] = false := by
      unfold keepLine
      rw [pyStrip_eq_nil_of_all_space [a]
        (fun x hx => by rw [List.mem_singleton.mp hx]; exact ha)]
      rfl
    simp [appendLast, h1]
  | cons l rest ih =>
    cases rest with
    | nil =>
      have h1 := keepLine_append_space l a ha
      have h2 := pyStrip_append_space l a ha
      show ([l ++ [a]].filter keepLine).map pyStrip = _
      cases hk : keepLine l with
      | false => simp [List.filter_cons, h1, hk]
      | true => simp [List.filter_cons, h1, hk, h2]
    | cons l2 ls =>
      show ((l :: appendLast a (l2 :: ls)).filter keepLine).map pyStrip = _
      cases hk : keepLine l with
      | false => simp [List.filter_cons, hk, ih]
      | true => simp [List.filter_cons, hk, ih]

theorem rawSegRefs_rstrip (s : PyStr) : rawSegRefs (rstrip s) = rawSegRefs s := by
  induction s using List.reverseRecOn with
  | nil => rfl
  | append_singleton t c ih =>
    by_cases hc : isSpaceChar c = true
    · by_cases hnl : c = '\n'
      · subst hnl
        have h2 : rawSegRefs (t ++ ['\n']) = rawSegRefs t := by
          unfold rawSegRefs
          rw [splitOnChar_append_sep, List.filter_append]
          simp [keepLine_nil]
        rw [rstrip_append_space t '\n' hc, ih, h2]
      · have h2 : rawSegRefs (t ++ [c]) = rawSegRefs t := by
          unfold rawSegRefs
          rw [splitOnChar_append_ne '\n' c hnl t]
          exact rawSegRefs_appendLast c hc (splitOnChar '\n' t)
        rw [rstrip_append_space t c hc, ih, h2]
    · rw [rstrip_append_nospace t c (by simpa using hc)]

theorem rawSegRefs_lstrip (s : PyStr)
    (hg : goodFirstLines (splitOnChar '\n' s) = true) :
    rawSegRefs (lstrip s) = rawSegRefs s := by
  induction s with
  | nil => rfl
  | cons c t ih =>
    by_cases hc : isSpaceChar c = true
    · by_cases hnl : c = '\n'
      · subst hnl
        rw [splitOnChar_cons_sep] at hg
        have hg' : goodFirstLines (splitOnChar '\n' t) = true := by
          simpa [goodFirstLines, pyStrip, lstrip, rstrip] using hg
        have h2 : rawSegRefs ('\n' :: t) = rawSegRefs t := by
          unfold rawSegRefs
          rw [splitOnChar_cons_sep]
          simp [List.filter_cons, keepLine_nil]
        rw [lstrip_cons_space _ _ hc, ih hg', h2]
      · obtain ⟨hh, rest, hs⟩ := splitOnChar_dest '\n' t
        have hsplit : splitOnChar '\n' (c :: t) = (c :: hh) :: rest :=
          splitOnChar_cons_ne '\n' c t hnl hh rest hs
        have hstrip_ch : pyStrip (c :: hh) = pyStrip hh := pyStrip_cons_space c hh hc
        rw [hsplit] at hg
        by_cases hb : pyStrip (c :: hh) = []
        · have hbh : pyStrip hh = [] := by rw [← hstrip_ch]; exact hb
          have hg' : goodFirstLines (splitOnChar '\n' t) = true := by
            rw [hs]
            simp only [goodFirstLines, hb, if_pos] at hg
            simpa [goodFirstLines, hbh] using hg
          have hkch : keepLine (c :: hh) = false := by simp [keepLine, hb]
          have hkh : keepLine hh = false := by simp [keepLine, hbh]
          have h2 : rawSegRefs (c :: t) = rawSegRefs t := by
            unfold rawSegRefs
            rw [hsplit, hs]
            simp [List.filter_cons, hkch, hkh]
          rw [lstrip_cons_space _ _ hc, ih hg', h2]
        · have hnb : pyStrip hh ≠ [] := by rw [← hstrip_ch]; exact hb
          have hch : startsWithHash (c :: hh) = false := by
            simp [startsWithHash, space_not_hash c hc]
          have hnothash : startsWithHash (pyStrip (c :: hh)) = false := by
            simp only [goodFirstLines, hb, if_neg, hch, Bool.or_false] at hg
            simpa using hg
          have hnothash_h : startsWithHash (pyStrip hh) = false := by
            rw [← hstrip_ch]; exact hnothash
          have hg' : goodFirstLines (splitOnChar '\n' t) = true := by
            rw [hs]
            simp [goodFirstLines, hnb, hnothash_h]
          have hnh : startsWithHash hh = false := by
            cases hsw : startsWithHash hh
            · rfl
            · have h1 := startsWithHash_pyStrip hh hsw hnb
              rw [h1] at hnothash_h
              exact absurd hnothash_h (by simp)
          have hkch : keepLine (c :: hh) = true := by
            simp [keepLine, hb, hch]
          have hkh : keepLine hh = true := by
            simp [keepLine, hnb, hnh]
          have h2 : rawSegRefs (c :: t) = rawSegRefs t := by
            unfold rawSegRefs
            rw [hsplit, hs]
            simp [List.filter_cons, hkch, hkh, hstrip_ch]
          rw [lstrip_cons_space _ _ hc, ih hg', h2]
    · rw [lstrip_cons_nospace c t (by simpa using hc)]

theorem parse_eq_rawSegRefs (s : PyStr)
    (hg : goodFirstLines (splitOnChar '\n' s) = true) :
    parse_segment_files s = rawSegRefs s := by
  show rawSegRefs (pyStrip s) = rawSegRefs s
  unfold pyStrip
  rw [rawSegRefs_rstrip (lstrip s), rawSegRefs_lstrip s hg]

theorem goodFirstLines_of_blank_or_comment (L : List PyStr)
    (h : ∀ l ∈ L, pyStrip l = [] ∨ startsWithHash l = true) :
    goodFirstLines L = true := by
  induction L with
  | nil => rfl
  | cons l rest ih =>
    by_cases hb : pyStrip l = []
    · simp only [goodFirstLines, hb, if_pos]
      exact ih fun x hx => h x (List.mem_cons_of_mem l hx)
    · rcases h l (List.mem_cons_self l rest) with hb' | hh
      · exact absurd hb' hb
      · simp [goodFirstLines, hb, hh]

theorem filter_keepLine_nil (L : List PyStr)
    (h : ∀ l ∈ L, pyStrip l = [] ∨ startsWithHash l = true) :
    L.filter keepLine = [] := by
  rw [List.filter_eq_nil_iff]
  intro l hl
  rcases h l hl with hb | hh
  · simp [keepLine, hb]
  · simp [keepLine, hh]

theorem rsplit_last_slash (url : PyStr) (h : '/' ∈ url) :
    ∃ pre tail, url = pre ++ '/' :: tail ∧ '/' ∉ tail ∧
      rsplitSlashHead url = pre := by
  have hr : '/' ∈ url.reverse := List.mem_reverse.mpr h
  cases hd : url.reverse.dropWhile (fun c => c ≠ '/') with
  | nil =>
    exfalso
    rw [List.dropWhile_eq_nil_iff] at hd
    have := hd '/' hr
    simp at this
  | cons c cs =>
    have hc : c = '/' := by
      have := dropWhile_head_false url.reverse c cs hd
      simpa using this
    subst hc
    refine ⟨cs.reverse, (url.reverse.takeWhile (fun c => c ≠ '/')).reverse,
      ?_, ?_, ?_⟩
    · conv_lhs => rw [← List.reverse_reverse url,
        ← List.takeWhile_append_dropWhile
          (p := fun c => decide (c ≠ '/')) (l := url.reverse)]
      rw [hd, List.reverse_append, List.reverse_cons, List.append_assoc]
      rfl
    · intro hm
      have := List.mem_takeWhile_imp (List.mem_reverse.mp hm)
      simp at this
    · unfold rsplitSlashHead
      rw [hd]

theorem rawSegRefs_mem_of (s : PyStr) (line : PyStr)
    (hline : line ∈ splitOnChar '\n' s) (hkeep : keepLine line = true) :
    pyStrip line ∈ rawSegRefs s :=
  List.mem_map_of_mem _ (List.mem_filter.mpr ⟨hline, hkeep⟩)

theorem rawSegRefs_lstrip_mem (s : PyStr) (pre post : List PyStr) (line : PyStr)
    (hsplit : splitOnChar '\n' s = pre ++ line :: post)
    (hkeep : keepLine line = true)
    (hpre : ∃ l' ∈ pre, pyStrip l' ≠ []) :
    pyStrip line ∈ rawSegRefs (lstrip s) := by
  induction s generalizing pre post with
  | nil =>
    cases pre with
    | nil =>
      have : line = [] := by
        have h0 : splitOnChar '\n' ([] : PyStr) = [[]] := rfl
        rw [h0] at hsplit
        injection hsplit with h1 _
        exact h1.symm
      rw [this] at hkeep
      exact absurd hkeep (by simp [keepLine_nil])
    | cons a as =>
      exfalso
      have h0 : splitOnChar '\n' ([] : PyStr) = [[]] := rfl
      rw [h0, List.cons_append] at hsplit
      injection hsplit with _ h2
      rcases List.append_eq_nil.mp h2.symm with ⟨_, h3⟩
      cases h3
  | cons c t ih =>
    by_cases hc : isSpaceChar c = true
    · by_cases hnl : c = '\n'
      · subst hnl
        rw [splitOnChar_cons_sep] at hsplit
        cases pre with
        | nil =>
          injection hsplit with h1 _
          rw [← h1] at hkeep
          exact absurd hkeep (by simp [keepLine_nil])
        | cons a as =>
          rw [List.cons_append] at hsplit
          injection hsplit with h1 h2
          rcases hpre with ⟨l', hl', hnbl⟩
          rcases List.mem_cons.mp hl' with rfl | hl2
          · rw [← h1] at hnbl
            exact absurd rfl hnbl
          · rw [lstrip_cons_space _ _ hc]
            exact ih as post h2 ⟨l', hl2, hnbl⟩
      · obtain ⟨hh, rest, hs⟩ := splitOnChar_dest '\n' t
        rw [splitOnChar_cons_ne '\n' c t hnl hh rest hs] at hsplit
        cases pre with
        | nil =>
          rcases hpre with ⟨l', hl', _⟩
          cases hl'
        | cons a as =>
          rw [List.cons_append] at hsplit
          injection hsplit with h1 h2
          rcases hpre with ⟨l', hl', hnbl⟩
          rw [lstrip_cons_space _ _ hc]
          have hsplit2 : splitOnChar '\n' t = (hh :: as) ++ line :: post := by
            rw [hs, h2]
            rfl
          rcases List.mem_cons.mp hl' with rfl | hl2
          · have hnbh : pyStrip hh ≠ [] := by
              rw [← pyStrip_cons_space c hh hc, h1]
              exact hnbl
            exact ih (hh :: as) post hsplit2
              ⟨hh, List.mem_cons_self hh as, hnbh⟩
          · exact ih (hh :: as) post hsplit2
              ⟨l', List.mem_cons_of_mem hh hl2, hnbl⟩
    · rw [lstrip_cons_nospace c t (by simpa using hc)]
      exact rawSegRefs_mem_of (c :: t) line
        (by rw [hsplit]; exact List.mem_append_right pre (List.mem_cons_self line post))
        hkeep

theorem lines_lstrip_strip_mem (s : PyStr) (line' : PyStr)
    (h : line' ∈ splitOnChar '\n' (lstrip s)) :
    ∃ line ∈ splitOnChar '\n' s, pyStrip line' = pyStrip line := by
  induction s with
  | nil => exact ⟨line', h, rfl⟩
  | cons c t ih =>
    by_cases hc : isSpaceChar c = true
    · rw [lstrip_cons_space _ _ hc] at h
      obtain ⟨line, hm, he⟩ := ih h
      by_cases hnl : c = '\n'
      · subst hnl
        refine ⟨line, ?_, he⟩
        rw [splitOnChar_cons_sep]
        exact List.mem_cons_of_mem _ hm
      · obtain ⟨hh, rest, hs⟩ := splitOnChar_dest '\n' t
        rw [hs] at hm
        rw [splitOnChar_cons_ne '\n' c t hnl hh rest hs]
        rcases List.mem_cons.mp hm with rfl | hm2
        · exact ⟨c :: line, List.mem_cons_self _ _,
            by rw [he, pyStrip_cons_space _ _ hc]⟩
        · exact ⟨line, List.mem_cons_of_mem _ hm2, he⟩
    · rw [lstrip_cons_nospace c t (by simpa using hc)] at h
      exact ⟨line', h, rfl⟩

theorem appendLast_strip_mem (a : Char) (ha : isSpaceChar a = true)
    (L : List PyStr) (line : PyStr) (h : line ∈ L) :
    ∃ line2 ∈ appendLast a L, pyStrip line2 = pyStrip line := by
  induction L with
  | nil => cases h
  | cons l rest ih =>
    cases rest with
    | nil =>
      have : line = l := List.mem_singleton.mp h
      subst this
      exact ⟨line ++ [a], List.mem_singleton.mpr rfl,
        pyStrip_append_space line a ha⟩
    | cons l2 ls =>
      rcases List.mem_cons.mp h with rfl | hm
      · exact ⟨line, List.mem_cons_self _ _, rfl⟩
      · obtain ⟨line2, hm2, he⟩ := ih hm
        exact ⟨line2, List.mem_cons_of_mem _ hm2, he⟩

theorem lines_rstrip_strip_mem (s : PyStr) (line' : PyStr)
    (h : line' ∈ splitOnChar '\n' (rstrip s)) :
    ∃ line ∈ splitOnChar '\n' s, pyStrip line' = pyStrip line := by
  induction s using List.reverseRecOn with
  | nil => exact ⟨line', h, rfl⟩
  | append_singleton t c ih =>
    by_cases hc : isSpaceChar c = true
    · rw [rstrip_append_space t c hc] at h
      obtain ⟨line, hm, he⟩ := ih h
      by_cases hnl : c = '\n'
      · subst hnl
        rw [splitOnChar_append_sep]
        exact ⟨line, List.mem_append_left _ hm, he⟩
      · rw [splitOnChar_append_ne '\n' c hnl t]
        obtain ⟨line2, hm2, he2⟩ := appendLast_strip_mem c hc _ line hm
        exact ⟨line2, hm2, by rw [he, ← he2]⟩
    · rw [rstrip_append_nospace t c (by simpa using hc)] at h
      exact ⟨line', h, rfl⟩

theorem lines_pyStrip_strip_mem (s : PyStr) (line' : PyStr)
    (h : line' ∈ splitOnChar '\n' (pyStrip s)) :
    ∃ line ∈ splitOnChar '\n' s, pyStrip line' = pyStrip line := by
  obtain ⟨l2, hm2, he2⟩ := lines_rstrip_strip_mem (lstrip s) line' h
  obtain ⟨l3, hm3, he3⟩ := lines_lstrip_strip_mem s l2 hm2
  exact ⟨l3, hm3, by rw [he2, he3]⟩

/-! ### Lemmas about the urljoin model -/

theorem takeWhile_all_append {α : Type} (p : α → Bool) (xs ys : List α)
    (h : ∀ x ∈ xs, p x = true) :
    (xs ++ ys).takeWhile p = xs ++ ys.takeWhile p := by
  induction xs with
  | nil => rfl
  | cons a t ih =>
    rw [List.cons_append, List.takeWhile_cons_of_pos (h a (List.mem_cons_self a t)),
      ih fun x hx => h x (List.mem_cons_of_mem a hx)]
    rfl

theorem splitColon_https (rest : PyStr) :
    splitColon ("https:".toList ++ rest) = some ("https".toList, rest) := by
  have h1 : ("https:".toList ++ rest).takeWhile (fun c => !(c == ':')) =
      "https".toList := by
    have e : ("https:".toList ++ rest) = "https".toList ++ (':' :: rest) := rfl
    rw [e, takeWhile_all_append _ _ _ (by decide),
      List.takeWhile_cons_of_neg (by decide), List.append_nil]
  have h2 : ("https:".toList ++ rest).drop ("https".toList.length + 1) = rest := by
    have e : ("https".toList.length + 1) = ("https:".toList).length := rfl
    rw [e, List.drop_left]
  simp only [splitColon, h1, h2]
  rw [if_pos (by simp [List.length_append])]

theorem splitColon_none (s : PyStr) (h : ':' ∉ s) : splitColon s = none := by
  have h1 : s.takeWhile (fun c => !(c == ':')) = s := by
    have := takeWhile_all_append (fun c => !(c == ':')) s []
      (fun x hx => by
        have hne : ¬ x = ':' := fun he => h (he ▸ hx)
        simp [hne])
    simpa using this
  simp only [splitColon, h1]
  rw [if_neg (Nat.lt_irrefl s.length)]

theorem schemeSplit_https (rest ds : PyStr) :
    schemeSplit ("https:".toList ++ rest) ds = ("https".toList, rest) := by
  simp only [schemeSplit, splitColon_https]
  rw [if_pos (by decide)]
  rfl

theorem schemeSplit_plain (ref ds : PyStr) (h : ':' ∉ ref) :
    schemeSplit ref ds = (ds, ref) := by
  simp only [schemeSplit, splitColon_none ref h]

theorem netlocSplit_slashes (host tail : PyStr)
    (hhost : ∀ c ∈ host, c ≠ '/' ∧ c ≠ '?' ∧ c ≠ '#') :
    netlocSplit ('/' :: '/' :: (host ++ '/' :: tail)) = (host, '/' :: tail) := by
  have hnl : (host ++ '/' :: tail).takeWhile
      (fun c => !(c == '/') && !(c == '?') && !(c == '#')) = host := by
    rw [takeWhile_all_append _ host _
      (fun c hc => by
        obtain ⟨h1, h2, h3⟩ := hhost c hc
        simp [h1, h2, h3]),
      List.takeWhile_cons_of_neg (by decide), List.append_nil]
  simp only [netlocSplit]
  rw [if_pos (show List.take 2 ('/' :: '/' :: (host ++ '/' :: tail))
    = ['/', '/'] from rfl)]
  simp only [List.drop_succ_cons, List.drop_zero, hnl, List.drop_left]

theorem netlocSplit_plain (r : PyStr) (h : ¬ r.take 2 = ['/', '/']) :
    netlocSplit r = ([], r) := by
  simp only [netlocSplit]
  rw [if_neg h]

theorem fragSplit_none (r : PyStr) (h : '#' ∉ r) : fragSplit r = (r, []) := by
  simp only [fragSplit]
  rw [if_neg h]

theorem querySplit_none (r : PyStr) (h : '?' ∉ r) : querySplit r = (r, []) := by
  simp only [querySplit]
  rw [if_neg h]

theorem pyUrlparse_https (host tail ds : PyStr)
    (hhost : ∀ c ∈ host, c ≠ '/' ∧ c ≠ '?' ∧ c ≠ '#')
    (htail : ∀ c ∈ tail, c ≠ '?' ∧ c ≠ '#' ∧ c ≠ ';') :
    pyUrlparse ("https://".toList ++ host ++ '/' :: tail) ds =
      ⟨"https".toList, host, '/' :: tail, [], [], []⟩ := by
  have hnofrag : '#' ∉ ('/' :: tail) := by
    intro hm
    rcases List.mem_cons.mp hm with he | hm2
    · exact absurd he (by decide)
    · exact (htail _ hm2).2.1 rfl
  have hnoquery : '?' ∉ ('/' :: tail) := by
    intro hm
    rcases List.mem_cons.mp hm with he | hm2
    · exact absurd he (by decide)
    · exact (htail _ hm2).1 rfl
  have hnosemi : ';' ∉ ('/' :: tail) := by
    intro hm
    rcases List.mem_cons.mp hm with he | hm2
    · exact absurd he (by decide)
    · exact (htail _ hm2).2.2 rfl
  have e : ("https://".toList ++ host ++ '/' :: tail) =
      "https:".toList ++ ('/' :: '/' :: (host ++ '/' :: tail)) := by simp
  rw [e]
  simp only [pyUrlparse, schemeSplit_https, netlocSplit_slashes host tail hhost,
    fragSplit_none _ hnofrag, querySplit_none _ hnoquery]
  rw [if_neg (fun hcon => hnosemi hcon.2)]

theorem pyUrlparse_plain (ref ds : PyStr)
    (h : ∀ c ∈ ref, c ≠ ':' ∧ c ≠ '/' ∧ c ≠ '?' ∧ c ≠ '#' ∧ c ≠ ';') :
    pyUrlparse ref ds = ⟨ds, [], ref, [], [], []⟩ := by
  have hcolon : ':' ∉ ref := fun hm => (h ':' hm).1 rfl
  have hnet : ¬ ref.take 2 = ['/', '/'] := by
    intro hcon
    have hm : '/' ∈ ref.take 2 := by rw [hcon]; exact List.mem_cons_self _ _
    exact (h '/' (List.mem_of_mem_take hm)).2.1 rfl
  have hnofrag : '#' ∉ ref := fun hm => (h '#' hm).2.2.2.1 rfl
  have hnoquery : '?' ∉ ref := fun hm => (h '?' hm).2.2.1 rfl
  have hnosemi : ';' ∉ ref := fun hm => (h ';' hm).2.2.2.2 rfl
  simp only [pyUrlparse, schemeSplit_plain ref ds hcolon,
    netlocSplit_plain ref hnet, fragSplit_none ref hnofrag,
    querySplit_none ref hnoquery]
  rw [if_neg (fun hcon => hnosemi hcon.2)]

theorem pyUrlunparse_https (host path : PyStr) (hh : host ≠ [])
    (hp : path.head? = some '/') :
    pyUrlunparse ⟨"https".toList, host, path, [], [], []⟩ =
      "https://".toList ++ host ++ path := by
  simp [pyUrlunparse, pyUrlunsplit, hh, hp]

theorem splitOnChar_dirs (c : Char) (dirs : List PyStr)
    (h : ∀ d ∈ dirs, c ∉ d) :
    splitOnChar c (dirs.map (fun d => d ++ [c])).flatten = dirs ++ [[]] := by
  induction dirs with
  | nil => rfl
  | cons d rest ih =>
    have e : ((d :: rest).map (fun d => d ++ [c])).flatten =
        d ++ c :: (rest.map (fun d => d ++ [c])).flatten := by
      simp
    rw [e, splitOnChar_sep_mid c d _ (h d (List.mem_cons_self d rest)),
      ih fun x hx => h x (List.mem_cons_of_mem d hx)]
    rfl

theorem filterNotLast_append_single (xs : List PyStr) (z : PyStr) :
    filterNotLast (xs ++ [z]) = xs.filter (fun s => !s.isEmpty) ++ [z] := by
  induction xs with
  | nil => rfl
  | cons a t ih =>
    rw [List.cons_append]
    cases ht : t ++ [z] with
    | nil => exact absurd ht (by simp)
    | cons b rest =>
      show filterNotLast (a :: b :: rest) = _
      by_cases ha : a = []
      · subst ha
        simp only [filterNotLast, if_pos rfl]
        rw [← ht, ih]
        simp [List.filter_cons]
      · simp only [filterNotLast, if_neg ha]
        rw [← ht, ih]
        have : (!a.isEmpty) = true := by
          cases a with
          | nil => exact absurd rfl ha
          | cons x y => rfl
        simp [List.filter_cons, this]

theorem filter_nonempty_self (l : List PyStr) (h : ∀ d ∈ l, d ≠ []) :
    l.filter (fun s => !s.isEmpty) = l := by
  induction l with
  | nil => rfl
  | cons a t ih =>
    have ha : (!a.isEmpty) = true := by
      cases a with
      | nil => exact absurd rfl (h [] (List.mem_cons_self [] t))
      | cons x y => rfl
    simp only [List.filter_cons, ha, if_pos]
    rw [ih fun d hd => h d (List.mem_cons_of_mem a hd)]

theorem resolveDotSegs_no_dots (segs : List PyStr)
    (h : ∀ s ∈ segs, s ≠ ['.'] ∧ s ≠ ['.', '.']) :
    resolveDotSegs segs = segs := by
  suffices hgen : ∀ acc, segs.foldl
      (fun acc seg =>
        if seg = ['.', '.'] then acc.dropLast
        else if seg = ['.'] then acc
        else acc ++ [seg]) acc = acc ++ segs by
    have := hgen []
    simpa [resolveDotSegs] using this
  induction segs with
  | nil => intro acc; simp
  | cons s rest ih =>
    intro acc
    have hs := h s (List.mem_cons_self s rest)
    rw [List.foldl_cons, if_neg hs.2, if_neg hs.1,
      ih (fun x hx => h x (List.mem_cons_of_mem s hx)) (acc ++ [s])]
    simp

theorem joinWith_cons_of_ne_nil (c : Char) (s : PyStr) (L : List PyStr)
    (h : L ≠ []) : joinWith c (s :: L) = s ++ c :: joinWith c L := by
  cases L with
  | nil => exact absurd rfl h
  | cons l2 ls => rfl

theorem joinWith_dirs (c : Char) (dirs : List PyStr) (ref : PyStr) :
    joinWith c (dirs ++ [ref]) =
      (dirs.map (fun d => d ++ [c])).flatten ++ ref := by
  induction dirs with
  | nil => rfl
  | cons d rest ih =>
    rw [List.cons_append, joinWith_cons_of_ne_nil c d _ (by simp), ih]
    simp

/-! ### Claim theorems -/

/-- C1. All-or-nothing segment download: if the fetch of any one segment of
the playlist fails, `_download_all_segments` returns an error (for every task
completion order), never a byte buffer. -/
theorem c1_all_or_nothing (http : PyStr → Nat × Bytes) (order : List Nat)
    (base_url : PyStr) (segment_files : List PyStr) (seg : PyStr)
    (hmem : seg ∈ segment_files)
    (hfail : exOk (download_segment http (pyUrljoin base_url seg)) = false) :
    ∃ e, download_all_segments http order base_url segment_files = .error e := by
  unfold download_all_segments
  have h : ∃ t ∈ segment_files.map
      (fun s => download_segment http (pyUrljoin base_url s)),
      exOk t = false :=
    ⟨download_segment http (pyUrljoin base_url seg),
      List.mem_map_of_mem _ hmem, hfail⟩
  rcases gatherModel_error order _ h with ⟨e, he⟩
  exact ⟨e, by simp [he, Except.map]⟩

/-- Witness for C1: a three-segment playlist where the middle segment's
server answers 404 makes the whole batch fail. -/
theorem c1_all_or_nothing_witness :
    ∃ e, download_all_segments
      (fun u => if u = "https://x/p/b.ts".toList then (404, []) else (200, [7]))
      [0, 1, 2] "https://x/p/".toList
      ["a.ts".toList, "b.ts".toList, "c.ts".toList] = .error e :=
  c1_all_or_nothing
    (fun u => if u = "https://x/p/b.ts".toList then (404, []) else (200, [7]))
    [0, 1, 2] "https://x/p/".toList
    ["a.ts".toList, "b.ts".toList, "c.ts".toList] "b.ts".toList
    (by decide) (by decide)

/-- C2. Order-preserving assembly: when every segment fetch succeeds,
`_download_all_segments` returns the byte-wise concatenation of the segment
bodies in playlist index order, for every task completion order. -/
theorem c2_ordered_assembly (http : PyStr → Nat × Bytes) (order : List Nat)
    (base_url : PyStr) (segment_files : List PyStr)
    (hok : ∀ seg ∈ segment_files, (http (pyUrljoin base_url seg)).1 = 200) :
    download_all_segments http order base_url segment_files =
      .ok (List.flatten (segment_files.map
        (fun seg => (http (pyUrljoin base_url seg)).2))) := by
  unfold download_all_segments
  have htask : ∀ seg ∈ segment_files,
      download_segment http (pyUrljoin base_url seg) =
        .ok (http (pyUrljoin base_url seg)).2 := by
    intro seg hs
    unfold download_segment
    simp [hok seg hs]
  have hall : ∀ t ∈ segment_files.map
      (fun s => download_segment http (pyUrljoin base_url s)),
      exOk t = true := by
    intro t ht
    rcases List.mem_map.mp ht with ⟨seg, hs, rfl⟩
    rw [htask seg hs]; rfl
  unfold gatherModel
  simp only [firstErrorIn_none_of_ok order _ hall,
    collectOk_map_ok segment_files _ _ htask, Except.map]

/-- Witness for C2: segments `a.ts`, `b.ts`, `c.ts` with bodies `[0]`, `[1]`,
`[2]`, completing in reverse order, assemble to `[0, 1, 2]`. -/
theorem c2_ordered_assembly_witness :
    download_all_segments
      (fun u => if u = "https://x/p/a.ts".toList then (200, [0])
        else if u = "https://x/p/b.ts".toList then (200, [1])
        else (200, [2]))
      [2, 1, 0] "https://x/p/".toList
      ["a.ts".toList, "b.ts".toList, "c.ts".toList] = .ok [0, 1, 2] := by
  have := c2_ordered_assembly
    (fun u => if u = "https://x/p/a.ts".toList then (200, [0])
      else if u = "https://x/p/b.ts".toList then (200, [1])
      else (200, [2]))
    [2, 1, 0] "https://x/p/".toList
    ["a.ts".toList, "b.ts".toList, "c.ts".toList] (by decide)
  rw [this]
  rfl

/-- Counterexample to C5 as stated: HTTP 204 is in the 2xx range, yet the
segment fetch rejects it, because the code tests `status != 200`, not
membership in 2xx. -/
theorem c5_counterexample :
    200 ≤ 204 ∧ 204 < 300 ∧
      exOk (download_segment (fun _ => (204, [0, 1])) "https://x/s.ts".toList)
        = false :=
  ⟨by norm_num, by norm_num, rfl⟩

/-- C5 (amended). The success criterion is status `= 200` exactly: a segment
fetch returns the body iff the status is 200, and the playlist fetch raises an
HTTP-status error iff the status is not 200. -/
theorem c5_success_iff_200 (httpT : PyStr → Nat × PyStr)
    (httpB : PyStr → Nat × Bytes) (plist_url seg_url : PyStr) :
    (exOk (download_segment httpB seg_url) = true ↔ (httpB seg_url).1 = 200)
    ∧ ((httpB seg_url).1 = 200 →
        download_segment httpB seg_url = .ok (httpB seg_url).2)
    ∧ (isHttpStatusErr (download_playlist httpT plist_url) = true ↔
        (httpT plist_url).1 ≠ 200) := by
  refine ⟨?_, ?_, ?_⟩
  · unfold download_segment
    by_cases h : (httpB seg_url).1 = 200 <;> simp [h, exOk]
  · intro h
    unfold download_segment
    simp [h]
  · unfold download_playlist
    by_cases h : (httpT plist_url).1 = 200
    · simp only [h]
      by_cases he : (parse_segment_files (httpT plist_url).2).isEmpty <;>
        simp [he, isHttpStatusErr]
    · simp [h, isHttpStatusErr]

/-- Counterexample to C4 as stated: `_download_all_segments` resolves with
full URI-reference resolution (`urljoin`), not a plain join — the relative
reference `/seg.ts` against base `https://x/a/b/` replaces the whole path. -/
theorem c4_counterexample :
    pyUrljoin "https://x/a/b/".toList "/seg.ts".toList =
      "https://x/seg.ts".toList ∧
    pyUrljoin "https://x/a/b/".toList "/seg.ts".toList ≠
      "https://x/a/b/".toList ++ "/seg.ts".toList := by
  decide

/-- C4 (amended).  Resolution is full URI-reference resolution (`urljoin`),
not a plain join in general; but for a plain relative reference — non-empty,
no `/`, `:`, `?`, `#` or `;`, not `.` or `..` — against a directory base URL
`https://host/d1/.../dn/` whose segments are plain, the resolved fetch URL
does equal the plain join `base ++ reference`, and a reference that is itself
an absolute `https://host2/...` URL is used unchanged. -/
theorem c4_sibling_resolution (host : PyStr) (dirs : List PyStr)
    (ref host2 tail2 : PyStr)
    (hhostne : host ≠ [])
    (hhost : ∀ c ∈ host, c ≠ '/' ∧ c ≠ '?' ∧ c ≠ '#')
    (hdirs : ∀ d ∈ dirs, d ≠ [] ∧ d ≠ ['.'] ∧ d ≠ ['.', '.'] ∧
      ∀ c ∈ d, c ≠ '/' ∧ c ≠ '?' ∧ c ≠ '#' ∧ c ≠ ';')
    (hrefne : ref ≠ []) (hrefd1 : ref ≠ ['.']) (hrefd2 : ref ≠ ['.', '.'])
    (href : ∀ c ∈ ref, c ≠ ':' ∧ c ≠ '/' ∧ c ≠ '?' ∧ c ≠ '#' ∧ c ≠ ';')
    (hhost2ne : host2 ≠ [])
    (hhost2 : ∀ c ∈ host2, c ≠ '/' ∧ c ≠ '?' ∧ c ≠ '#')
    (htail2 : ∀ c ∈ tail2, c ≠ '?' ∧ c ≠ '#' ∧ c ≠ ';') :
    pyUrljoin ("https://".toList ++ host ++ '/' ::
        (dirs.map (fun d => d ++ ['/'])).flatten) ref =
      ("https://".toList ++ host ++ '/' ::
        (dirs.map (fun d => d ++ ['/'])).flatten) ++ ref ∧
    pyUrljoin ("https://".toList ++ host ++ '/' ::
        (dirs.map (fun d => d ++ ['/'])).flatten)
      ("https://".toList ++ host2 ++ '/' :: tail2) =
      "https://".toList ++ host2 ++ '/' :: tail2 := by
  have hdfchars : ∀ c ∈ (dirs.map (fun d => d ++ ['/'])).flatten,
      c ≠ '?' ∧ c ≠ '#' ∧ c ≠ ';' := by
    intro c hc
    rw [List.mem_flatten] at hc
    obtain ⟨l, hl, hcl⟩ := hc
    rw [List.mem_map] at hl
    obtain ⟨d, hd, rfl⟩ := hl
    rcases List.mem_append.mp hcl with h1 | h1
    · obtain ⟨_, h2, h3, h4⟩ := (hdirs d hd).2.2.2 c h1
      exact ⟨h2, h3, h4⟩
    · have hc' := List.mem_singleton.mp h1
      subst hc'
      decide
  have hbne : ("https://".toList ++ host ++ '/' ::
      (dirs.map (fun d => d ++ ['/'])).flatten) ≠ [] := by simp
  have hbparse := pyUrlparse_https host
    ((dirs.map (fun d => d ++ ['/'])).flatten) [] hhost hdfchars
  have hnoslashdirs : ∀ d ∈ dirs, '/' ∉ d :=
    fun d hd hm => ((hdirs d hd).2.2.2 '/' hm).1 rfl
  constructor
  · have huparse := pyUrlparse_plain ref "https".toList href
    have hbp : splitOnChar '/' ('/' ::
        (dirs.map (fun d => d ++ ['/'])).flatten) = [] :: (dirs ++ [[]]) := by
      rw [splitOnChar_cons_sep, splitOnChar_dirs '/' dirs hnoslashdirs]
    have hgl : (([] : PyStr) :: (dirs ++ [[]])).getLast? = some [] := by
      rw [show (([] : PyStr) :: (dirs ++ [[]])) =
        (([] : PyStr) :: dirs) ++ [[]] from rfl]
      exact List.getLast?_concat _
    have h9 : ¬ ref.head? = some '/' := by
      cases ref with
      | nil => exact absurd rfl hrefne
      | cons c u =>
        intro hcon
        simp only [List.head?_cons, Option.some.injEq] at hcon
        exact (href c (List.mem_cons_self c u)).2.1 hcon
    have hrs : splitOnChar '/' ref = [ref] :=
      splitOnChar_no_sep '/' ref fun hm => (href '/' hm).2.1 rfl
    have hseg : filterMiddleEmpties ((([] : PyStr) :: (dirs ++ [[]])) ++ [ref])
        = [] :: (dirs ++ [ref]) := by
      show ([] : PyStr) :: filterNotLast ((dirs ++ [[]]) ++ [ref]) = _
      rw [filterNotLast_append_single, List.filter_append,
        filter_nonempty_self dirs (fun d hd => (hdirs d hd).1)]
      simp
    have hnodots : ∀ s ∈ ([] : PyStr) :: (dirs ++ [ref]),
        s ≠ ['.'] ∧ s ≠ ['.', '.'] := by
      intro s hs
      rcases List.mem_cons.mp hs with rfl | hs2
      · exact ⟨by decide, by decide⟩
      · rcases List.mem_append.mp hs2 with h1 | h1
        · exact ⟨(hdirs s h1).2.1, (hdirs s h1).2.2.1⟩
        · rw [List.mem_singleton.mp h1]
          exact ⟨hrefd1, hrefd2⟩
    have hrd := resolveDotSegs_no_dots _ hnodots
    have hgl2 : (([] : PyStr) :: (dirs ++ [ref])).getLast? = some ref := by
      rw [show (([] : PyStr) :: (dirs ++ [ref])) =
        (([] : PyStr) :: dirs) ++ [ref] from rfl]
      exact List.getLast?_concat _
    have hpath : joinWith '/' (([] : PyStr) :: (dirs ++ [ref])) =
        '/' :: ((dirs.map (fun d => d ++ ['/'])).flatten ++ ref) := by
      rw [joinWith_cons_of_ne_nil '/' [] _ (by simp), joinWith_dirs]
      rfl
    have hunp := pyUrlunparse_https host
      ('/' :: ((dirs.map (fun d => d ++ ['/'])).flatten ++ ref)) hhostne rfl
    simp only [pyUrljoin, hbparse, huparse]
    rw [if_neg hbne, if_neg hrefne,
      if_neg (show ¬("https".toList ≠ "https".toList ∨
        ¬ usesRelative "https".toList = true) by decide),
      if_neg (show ¬(usesNetloc "https".toList = true ∧ ([] : PyStr) ≠ [])
        from fun hcon => hcon.2 rfl),
      if_pos (show usesNetloc "https".toList = true by decide),
      if_neg (show ¬(ref = [] ∧ True) from fun hcon => hrefne hcon.1),
      hbp,
      if_neg (show ¬(([] : PyStr) :: (dirs ++ [[]])).getLast? ≠ some []
        from fun hcon => hcon hgl),
      if_neg h9, hrs, hseg, hrd, hgl2,
      if_neg (show ¬(some ref = some ['.'] ∨ some ref = some ['.', '.']) by
        rintro (hcon | hcon)
        · exact hrefd1 (Option.some.inj hcon)
        · exact hrefd2 (Option.some.inj hcon)),
      hpath,
      if_neg (show ¬('/' :: ((dirs.map (fun d => d ++ ['/'])).flatten ++ ref)
        = []) by simp),
      hunp]
    simp
  · have huparse := pyUrlparse_https host2 tail2 "https".toList hhost2 htail2
    have hr2ne : ("https://".toList ++ host2 ++ '/' :: tail2) ≠ [] := by simp
    have hunp2 := pyUrlunparse_https host2 ('/' :: tail2) hhost2ne rfl
    simp only [pyUrljoin, hbparse, huparse]
    rw [if_neg hbne, if_neg hr2ne,
      if_neg (show ¬("https".toList ≠ "https".toList ∨
        ¬ usesRelative "https".toList = true) by decide),
      if_pos (show usesNetloc "https".toList = true ∧ host2 ≠ []
        from ⟨by decide, hhost2ne⟩),
      hunp2]

/-- Witness for C4: `seg0.ts` against `https://x/a/b/` resolves to the plain
join `https://x/a/b/seg0.ts`, and the absolute reference `https://y/c.ts` is
used unchanged. -/
theorem c4_sibling_resolution_witness :
    pyUrljoin ("https://".toList ++ "x".toList ++ '/' ::
        ((["a".toList, "b".toList].map (fun d => d ++ ['/'])).flatten))
      "seg0.ts".toList =
      ("https://".toList ++ "x".toList ++ '/' ::
        ((["a".toList, "b".toList].map (fun d => d ++ ['/'])).flatten)) ++
        "seg0.ts".toList ∧
    pyUrljoin ("https://".toList ++ "x".toList ++ '/' ::
        ((["a".toList, "b".toList].map (fun d => d ++ ['/'])).flatten))
      ("https://".toList ++ "y".toList ++ '/' :: "c.ts".toList) =
      "https://".toList ++ "y".toList ++ '/' :: "c.ts".toList :=
  c4_sibling_resolution "x".toList ["a".toList, "b".toList]
    "seg0.ts".toList "y".toList "c.ts".toList
    (by decide) (by decide) (by decide) (by decide) (by decide) (by decide)
    (by decide) (by decide) (by decide) (by decide)

/-- Counterexample to C3 as stated: the text with raw lines `"  #EXTM3U"` and
`"seg.ts"` has two non-blank lines not beginning with `'#'` (N = 2), yet the
parser returns one reference: `content.strip()` deletes the first line's
leading whitespace before splitting, turning it into a comment. -/
theorem c3_counterexample :
    (["  #EXTM3U".toList, "seg.ts".toList].filter keepLine).length = 2 ∧
    (parse_segment_files
      (joinWith '\n' ["  #EXTM3U".toList, "seg.ts".toList])).length = 1 := by
  decide

/-- C3 (amended). For any playlist text made of lines (blank, comment, or
segment lines), provided the first non-blank line is not a
whitespace-indented line whose stripped form starts with `'#'`
(`goodFirstLines`), `_download_playlist` returns exactly the non-blank
non-comment lines, stripped, in original order, and the base URL is the
source URL truncated to (and including) its last `'/'`. -/
theorem c3_parse (L : List PyStr) (url : PyStr) (http : PyStr → Nat × PyStr)
    (hhttp : http url = (200, joinWith '\n' L))
    (hnl : ∀ l ∈ L, '\n' ∉ l)
    (hg : goodFirstLines L = true)
    (hN : L.filter keepLine ≠ [])
    (hslash : '/' ∈ url) :
    download_playlist http url =
      .ok (base_url_of url, (L.filter keepLine).map pyStrip) ∧
    ((L.filter keepLine).map pyStrip).length = (L.filter keepLine).length ∧
    (∃ tail, url = base_url_of url ++ tail ∧ '/' ∉ tail) ∧
    (base_url_of url).getLast? = some '/' := by
  have hLne : L ≠ [] := fun h => hN (by rw [h]; rfl)
  have hsplit : splitOnChar '\n' (joinWith '\n' L) = L :=
    splitOnChar_join '\n' L hLne hnl
  have hpf : parse_segment_files (joinWith '\n' L) =
      (L.filter keepLine).map pyStrip := by
    rw [parse_eq_rawSegRefs _ (by rw [hsplit]; exact hg)]
    unfold rawSegRefs
    rw [hsplit]
  obtain ⟨pre, tail, hurl, htail, hbase⟩ := rsplit_last_slash url hslash
  have hbase2 : base_url_of url = pre ++ ['/'] := by
    unfold base_url_of
    rw [hbase]
  refine ⟨?_, List.length_map _ _, ⟨tail, ?_, htail⟩, ?_⟩
  · cases hF : L.filter keepLine with
    | nil => exact absurd hF hN
    | cons x xs => simp [download_playlist, hhttp, hpf, hF]
  · rw [hbase2, List.append_assoc]
    exact hurl
  · rw [hbase2]
    exact List.getLast?_concat _

/-- Witness for C3: the playlist `#EXTM3U\nseg0.ts\n\nseg1.ts` at
`https://cdn.example/p/index.m3u8` parses to the two segment lines in order
with base URL `https://cdn.example/p/`. -/
theorem c3_parse_witness :
    download_playlist
      (fun _ => (200, joinWith '\n'
        ["#EXTM3U".toList, "seg0.ts".toList, "".toList, "seg1.ts".toList]))
      "https://cdn.example/p/index.m3u8".toList =
      .ok (base_url_of "https://cdn.example/p/index.m3u8".toList,
        ((["#EXTM3U".toList, "seg0.ts".toList, "".toList,
          "seg1.ts".toList].filter keepLine).map pyStrip)) ∧
    ((["#EXTM3U".toList, "seg0.ts".toList, "".toList,
      "seg1.ts".toList].filter keepLine).map pyStrip).length =
      (["#EXTM3U".toList, "seg0.ts".toList, "".toList,
        "seg1.ts".toList].filter keepLine).length ∧
    (∃ tail, "https://cdn.example/p/index.m3u8".toList =
      base_url_of "https://cdn.example/p/index.m3u8".toList ++ tail ∧
      '/' ∉ tail) ∧
    (base_url_of "https://cdn.example/p/index.m3u8".toList).getLast?
      = some '/' :=
  c3_parse
    ["#EXTM3U".toList, "seg0.ts".toList, "".toList, "seg1.ts".toList]
    "https://cdn.example/p/index.m3u8".toList
    (fun _ => (200, joinWith '\n'
      ["#EXTM3U".toList, "seg0.ts".toList, "".toList, "seg1.ts".toList]))
    rfl (by decide) (by decide) (by decide) (by decide)

/-- C6. Empty-playlist failure: when every line of the fetched playlist text
is blank or a comment, `_download_playlist` raises the empty-playlist error
and never returns a playlist. -/
theorem c6_empty_playlist (http : PyStr → Nat × PyStr) (url : PyStr)
    (hstatus : (http url).1 = 200)
    (hlines : ∀ line ∈ splitOnChar '\n' (http url).2,
      pyStrip line = [] ∨ startsWithHash line = true) :
    download_playlist http url = .error .emptyPlaylist := by
  have hg := goodFirstLines_of_blank_or_comment _ hlines
  have hpe : parse_segment_files (http url).2 = [] := by
    rw [parse_eq_rawSegRefs _ hg]
    unfold rawSegRefs
    rw [filter_keepLine_nil _ hlines]
    rfl
  simp [download_playlist, hstatus, hpe]

/-- Witness for C6: a comment-only playlist text fails with the
empty-playlist error. -/
theorem c6_empty_playlist_witness :
    download_playlist (fun _ => (200, "#EXTM3U\n\n#END".toList))
      "https://x/p/index.m3u8".toList = .error .emptyPlaylist :=
  c6_empty_playlist (fun _ => (200, "#EXTM3U\n\n#END".toList))
    "https://x/p/index.m3u8".toList rfl (by decide)

/-- Counterexample to C9 as stated: `"  #EXTM3U"` begins with whitespace and
its stripped form starts with `'#'`, but as the first line of the text it is
discarded (the whole-text strip removes its indentation first), not returned. -/
theorem c9_counterexample :
    pyStrip "  #EXTM3U".toList = "#EXTM3U".toList ∧
    parse_segment_files "  #EXTM3U\nseg.ts".toList = ["seg.ts".toList] ∧
    "#EXTM3U".toList ∉ parse_segment_files "  #EXTM3U\nseg.ts".toList := by
  decide

/-- C9 (amended). A playlist line that begins with whitespace and whose
stripped form starts with `'#'` is not discarded as a comment but returned
(stripped) as a segment reference, provided some earlier line of the text is
non-blank (so the line is out of reach of the whole-text strip). -/
theorem c9_ws_hash_kept (L pre post : List PyStr) (line : PyStr)
    (hnl : ∀ l ∈ L, '\n' ∉ l)
    (hL : L = pre ++ line :: post)
    (hhead : ∃ c, line.head? = some c ∧ isSpaceChar c = true)
    (hhash : startsWithHash (pyStrip line) = true)
    (hpre : ∃ l' ∈ pre, pyStrip l' ≠ []) :
    pyStrip line ∈ parse_segment_files (joinWith '\n' L) := by
  have hLne : L ≠ [] := by
    rw [hL]
    exact fun hcon => by cases List.append_eq_nil.mp hcon |>.2
  have hsplit : splitOnChar '\n' (joinWith '\n' L) = pre ++ line :: post := by
    rw [splitOnChar_join '\n' L hLne hnl]
    exact hL
  have hkeep : keepLine line = true := by
    obtain ⟨c, hc, hcs⟩ := hhead
    have h1 : pyStrip line ≠ [] := by
      intro hnil
      rw [hnil] at hhash
      exact Bool.noConfusion hhash
    have h2 : startsWithHash line = false := by
      cases line with
      | nil => rfl
      | cons a u =>
        have ha : a = c := by
          simpa using hc
        subst ha
        simp [startsWithHash, space_not_hash a hcs]
    cases hps : pyStrip line with
    | nil => exact absurd hps h1
    | cons b u => simp [keepLine, hps, h2]
  have hmem := rawSegRefs_lstrip_mem (joinWith '\n' L) pre post line
    hsplit hkeep hpre
  have heq : rawSegRefs (pyStrip (joinWith '\n' L)) =
      rawSegRefs (lstrip (joinWith '\n' L)) := rawSegRefs_rstrip _
  show pyStrip line ∈ rawSegRefs (pyStrip (joinWith '\n' L))
  rw [heq]
  exact hmem

/-- Witness for C9: in `seg.ts\n  #EXTINF:4,` the indented second line is
returned, stripped, as the reference `#EXTINF:4,`. -/
theorem c9_ws_hash_kept_witness :
    pyStrip "  #EXTINF:4,".toList ∈ parse_segment_files
      (joinWith '\n' ["seg.ts".toList, "  #EXTINF:4,".toList]) :=
  c9_ws_hash_kept ["seg.ts".toList, "  #EXTINF:4,".toList]
    ["seg.ts".toList] [] "  #EXTINF:4,".toList
    (by decide) rfl ⟨' ', rfl, rfl⟩ (by decide)
    ⟨"seg.ts".toList, List.mem_singleton.mpr rfl, by decide⟩

/-- C10. Every segment reference returned by `_download_playlist` is
non-empty and equals one of the source lines with leading and trailing
whitespace (including carriage returns) removed; in particular no returned
reference carries leading or trailing whitespace. -/
theorem c10_refs_stripped (http : PyStr → Nat × PyStr) (url base : PyStr)
    (segs : List PyStr) (r : PyStr)
    (hok : download_playlist http url = .ok (base, segs)) (hr : r ∈ segs) :
    r ≠ [] ∧ pyStrip r = r ∧
      ∃ line ∈ splitOnChar '\n' (http url).2, r = pyStrip line := by
  have hsegs : segs = parse_segment_files (http url).2 := by
    by_cases hst : (http url).1 = 200
    · by_cases hemp : (parse_segment_files (http url).2).isEmpty = true
      · simp [download_playlist, hst, hemp] at hok
      · simp [download_playlist, hst, hemp] at hok
        exact hok.2.symm
    · simp [download_playlist, hst] at hok
  rw [hsegs] at hr
  obtain ⟨line', hline', hr3⟩ := List.mem_map.mp hr
  obtain ⟨hmem', hkeep'⟩ := List.mem_filter.mp hline'
  subst hr3
  refine ⟨?_, pyStrip_idem line', ?_⟩
  · intro hnil
    simp [keepLine, hnil] at hkeep'
  · obtain ⟨line, hm, he⟩ := lines_pyStrip_strip_mem (http url).2 line' hmem'
    exact ⟨line, hm, he⟩

/-- Witness for C10: from the text `" seg1.ts \r\nseg2.ts"` the returned
reference `seg1.ts` is non-empty, strip-idempotent, and equals the stripped
first source line. -/
theorem c10_refs_stripped_witness :
    "seg1.ts".toList ≠ [] ∧ pyStrip "seg1.ts".toList = "seg1.ts".toList ∧
      ∃ line ∈ splitOnChar '\n'
        ((fun (_ : PyStr) => (200, " seg1.ts \r\nseg2.ts".toList))
          "https://x/p/i.m3u8".toList).2,
        "seg1.ts".toList = pyStrip line :=
  c10_refs_stripped
    (fun _ => (200, " seg1.ts \r\nseg2.ts".toList))
    "https://x/p/i.m3u8".toList
    "https://x/p/".toList ["seg1.ts".toList, "seg2.ts".toList]
    "seg1.ts".toList rfl (by decide)

/-- C7. Fail-fast short-circuit: when the playlist fetch/parse stage or any
segment fetch errors, `download` returns failure and `_convert_to_mp4` is
never invoked. -/
theorem c7_fail_fast (httpT : PyStr → Nat × PyStr) (httpB : PyStr → Nat × Bytes)
    (order : List Nat) (writeOk convertOk : Bool) (src : PyStr)
    (h : fetchOrParseStageFails httpT httpB order src = true) :
    (downloadRun true (.found src) httpT httpB order writeOk convertOk).success
        = false ∧
    (downloadRun true (.found src) httpT httpB order writeOk
        convertOk).convertInvoked = false := by
  have htrace : downloadRun true (.found src) httpT httpB order writeOk
      convertOk = ⟨false, false, 1⟩ := by
    unfold downloadRun
    unfold fetchOrParseStageFails at h
    cases hp : download_playlist httpT src with
    | error e => simp [hp]
    | ok pair =>
      rcases pair with ⟨base_url, segment_files⟩
      rw [hp] at h
      simp only at h
      cases hd : download_all_segments httpB order base_url segment_files with
      | error e => simp [hp, hd]
      | ok data => rw [hd] at h; simp [exOk] at h
  rw [htrace]
  exact ⟨rfl, rfl⟩

/-- Witness for C7: the spec's end-to-end failure scenario — playlist
`#EXTM3U\nseg0.ts\nseg1.ts\n` at `https://cdn.example/p/index.m3u8` with
`seg1.ts` answering 404 — fails without invoking the transcoder. -/
theorem c7_fail_fast_witness :
    (downloadRun true (.found "https://cdn.example/p/index.m3u8".toList)
        (fun _ => (200, "#EXTM3U\nseg0.ts\nseg1.ts\n".toList))
        (fun u => if u = "https://cdn.example/p/seg1.ts".toList
          then (404, []) else (200, [0, 1, 2, 3]))
        [0, 1] true true).success = false ∧
    (downloadRun true (.found "https://cdn.example/p/index.m3u8".toList)
        (fun _ => (200, "#EXTM3U\nseg0.ts\nseg1.ts\n".toList))
        (fun u => if u = "https://cdn.example/p/seg1.ts".toList
          then (404, []) else (200, [0, 1, 2, 3]))
        [0, 1] true true).convertInvoked = false :=
  c7_fail_fast
    (fun _ => (200, "#EXTM3U\nseg0.ts\nseg1.ts\n".toList))
    (fun u => if u = "https://cdn.example/p/seg1.ts".toList
      then (404, []) else (200, [0, 1, 2, 3]))
    [0, 1] true true "https://cdn.example/p/index.m3u8".toList (by decide)

/-- C8. Guaranteed cleanup: every run of `download` that reaches the main
`try` block (i.e. passes URL validation) executes `_cleanup_temp_files`
exactly once before returning, on success and on every failure path alike. -/
theorem c8_guaranteed_cleanup (disc : Discovery) (httpT : PyStr → Nat × PyStr)
    (httpB : PyStr → Nat × Bytes) (order : List Nat) (writeOk convertOk : Bool) :
    (downloadRun true disc httpT httpB order writeOk convertOk).cleanupCount
      = 1 := rfl

end WB
